import Mathlib

/-!
A shallow embedding of the Redis-backed limit order book in `src/book.c`.

The Redis state manipulated by the C code is modelled explicitly:

* the sorted sets `bid_prices` / `ask_prices` become ascending `List ℚ`
  (`zadd` inserts keeping order and uniqueness, `zrem` removes a member);
* the pair of parallel Redis lists `bid_users@P` / `bid_amounts@P` — always
  pushed, popped and deleted in lockstep by the C code — becomes a single
  FIFO `List Order` stored in an association list keyed by price.  A Redis
  list key exists iff the list is non-empty, so an absent key and the empty
  list are both read as `[]`;
* the six parallel `matched_*` lists become one `List Fill`, most recent
  first (`LPUSH` prepends).

Prices and amounts are carried as exact rationals, following the spec's
numeric contract (exact decimal values compared by exact equality); this
abstracts the C's `double`/`atof` representation.

The C `while (1)` loops are written with an explicit fuel argument that is
decremented structurally.  The chosen fuel is provably sufficient: every
pass of the loop body in `trade` pops at least one order and every pass of
the loop body in `match` advances an index, see the termination theorem
further below.
-/

/-- One resting order: a queue element of `bid_users@P`/`bid_amounts@P`
(or the ask versions) read side by side. -/
structure Order where
  user : String
  amount : ℚ
deriving DecidableEq

/-- One executed trade: an element of the six parallel `matched_*` lists
read side by side (book.c lines 220-238). -/
structure Fill where
  bidder : String
  asker : String
  bidPrice : ℚ
  askPrice : ℚ
  amount : ℚ
  timestamp : Int
deriving DecidableEq

/-- Read the FIFO queue stored at price `p`.  A Redis list key exists iff
the list is non-empty, so a missing key reads as `[]` (the `REDIS_REPLY_NIL`
answer of `LINDEX ... 0` in book.c lines 180-181). -/
def qget : List (ℚ × List Order) → ℚ → List Order
  | [], _ => []
  | (q, v) :: m, p => if p = q then v else qget m p

/-- Store the FIFO queue `v` at price `p`, updating the existing key or
creating it. -/
def qset : List (ℚ × List Order) → ℚ → List Order → List (ℚ × List Order)
  | [], p, v => [(p, v)]
  | (q, w) :: m, p, v => if p = q then (q, v) :: m else (q, w) :: qset m p v

/-- `ZADD cmd_prices price price` (book.c line 71): insert into the sorted
set, keeping ascending order, no duplicates (score = member = price). -/
def zadd : List ℚ → ℚ → List ℚ
  | [], p => [p]
  | q :: l, p => if p < q then p :: q :: l else if p = q then q :: l else q :: zadd l p

/-- `ZREM cmd_prices price` (book.c lines 183, 195): remove the member. -/
def zrem (l : List ℚ) (p : ℚ) : List ℚ := l.filter (fun q => q ≠ p)

/-- Total number of resting orders held in an association list of queues. -/
def qtotal (m : List (ℚ × List Order)) : Nat := (m.map (fun e => e.2.length)).sum

/-- The full Redis state used by book.c: both price sorted sets, both
families of per-price FIFO queues, and the `matched_*` trade ledger
(most recent first). -/
structure Book where
  bidPrices : List ℚ
  askPrices : List ℚ
  bidQueues : List (ℚ × List Order)
  askQueues : List (ℚ × List Order)
  matched : List Fill
deriving DecidableEq

def emptyBook : Book := ⟨[], [], [], [], []⟩

/-- The side argument of `bid_ask` (the C passes the string "bid" or "ask"). -/
inductive Side where
  | bid
  | ask
deriving DecidableEq

/-- `bid_ask` (book.c lines 67-77): `ZADD cmd_prices price price`, then
`RPUSH cmd_users@price user` and `RPUSH cmd_amounts@price amount`.
No validation of `price` or `amount` is performed. -/
def bid_ask (side : Side) (user : String) (price amount : ℚ) (bk : Book) : Book :=
  match side with
  | .bid =>
    { bk with
      bidPrices := zadd bk.bidPrices price
      bidQueues := qset bk.bidQueues price (qget bk.bidQueues price ++ [⟨user, amount⟩]) }
  | .ask =>
    { bk with
      askPrices := zadd bk.askPrices price
      askQueues := qset bk.askQueues price (qget bk.askQueues price ++ [⟨user, amount⟩]) }

/-- `clear` (book.c lines 82-110): `DEL` every queue key listed in either
price sorted set, then `DEL` both sorted sets and the `matched_*` lists.
Deleting a Redis list key is `qset` to `[]` in this model. -/
def clearBook (bk : Book) : Book :=
  { bidPrices := []
    askPrices := []
    bidQueues := bk.bidPrices.foldl (fun m p => qset m p []) bk.bidQueues
    askQueues := bk.askPrices.foldl (fun m p => qset m p []) bk.askQueues
    matched := [] }

/-- Result of one `trade(bid_price, ask_price, ...)` call, before it is
written back into the book: the fills in chronological order, the final
bid and ask queues at the two prices, and the two output flags. -/
structure TradeResult where
  fills : List Fill
  bidQ : List Order
  askQ : List Order
  bidExhausted : Bool
  askExhausted : Bool
deriving DecidableEq

/-- The `while (1)` loop of `trade` (book.c lines 179-263), with fuel.

Each iteration peeks both heads; if either queue is empty that side's price
is `ZREM`ed, the corresponding `*_fully_matched` flag is set and the loop
breaks (lines 179-205).  Otherwise the C computes `trade_amount` (lines
207-218) — note that in the `else` branch (equal head amounts) the variable
`trade_amount` is NOT assigned: the C records whatever value it held from
the previous iteration (garbage on a first iteration).  The parameter `tA`
threads that mutable variable; its initial value is passed in by the caller
of the loop as the model of the uninitialized local.  The fill is recorded
(lines 220-238), then each side is popped if its head reached zero and
otherwise `LSET` to the reduced amount (lines 242-262); the head's user is
untouched by `LSET`.

Every iteration pops at least one order, so fuel `bq.length + aq.length`
always completes the loop; the fuel-exhausted case (which a run with that
fuel never reaches) returns with both flags clear. -/
def tradeGo (bp ap : ℚ) (now : Int) : Nat → List Order → List Order → ℚ → TradeResult
  | _, [], aq, _ => ⟨[], [], aq, true, aq.isEmpty⟩
  | _, b :: bq, [], _ => ⟨[], b :: bq, [], false, true⟩
  | 0, b :: bq, a :: aq, _ => ⟨[], b :: bq, a :: aq, false, false⟩
  | fuel + 1, b :: bq, a :: aq, tA =>
    if a.amount < b.amount then
      let r := tradeGo bp ap now fuel (⟨b.user, b.amount - a.amount⟩ :: bq) aq a.amount
      ⟨⟨b.user, a.user, bp, ap, a.amount, now⟩ :: r.fills,
        r.bidQ, r.askQ, r.bidExhausted, r.askExhausted⟩
    else if b.amount < a.amount then
      let r := tradeGo bp ap now fuel bq (⟨a.user, a.amount - b.amount⟩ :: aq) b.amount
      ⟨⟨b.user, a.user, bp, ap, b.amount, now⟩ :: r.fills,
        r.bidQ, r.askQ, r.bidExhausted, r.askExhausted⟩
    else
      let r := tradeGo bp ap now fuel bq aq tA
      ⟨⟨b.user, a.user, bp, ap, tA, now⟩ :: r.fills,
        r.bidQ, r.askQ, r.bidExhausted, r.askExhausted⟩

/-- The `trade` loop run with its (sufficient) canonical fuel. -/
def tradeLoop (bp ap : ℚ) (now : Int) (bq aq : List Order) (tA : ℚ) : TradeResult :=
  tradeGo bp ap now (bq.length + aq.length) bq aq tA

/-- `trade(bid_price, ask_price, &bid_fully_matched, &ask_fully_matched)`
(book.c lines 172-266) acting on the whole book state.

`tA0` models the indeterminate initial value of the uninitialized local
variable `trade_amount`.  `ZREM` of a price happens exactly when the
corresponding flag was set in the breaking iteration; the queues at the two
prices are written back; each recorded fill was `LPUSH`ed onto the
`matched_*` lists, i.e. prepended, so the chronological fill list is
reversed in front of the existing ledger.  Returns the new book, the
number of trades, and the two flags. -/
def trade (tA0 : ℚ) (now : Int) (bp ap : ℚ) (bk : Book) : Book × Nat × Bool × Bool :=
  let r := tradeLoop bp ap now (qget bk.bidQueues bp) (qget bk.askQueues ap) tA0
  ({ bidPrices := if r.bidExhausted then zrem bk.bidPrices bp else bk.bidPrices
     askPrices := if r.askExhausted then zrem bk.askPrices ap else bk.askPrices
     bidQueues := qset bk.bidQueues bp r.bidQ
     askQueues := qset bk.askQueues ap r.askQ
     matched := r.fills.reverse ++ bk.matched },
   r.fills.length, r.bidExhausted, r.askExhausted)

/-- The `do b++; while (...)` bid-skipping loop inside `match` (book.c
lines 323-324), with fuel: starting from index `b`, advance to the first
later index whose snapshot bid price is not below `ap`.  The C performs no
bounds check; when the walk leaves the snapshot (which, per the safety
theorem below, cannot happen under `match`'s actual invocation) the model
stops and returns the out-of-range index. -/
def skipGo (bids : List ℚ) (ap : ℚ) : Nat → Nat → Nat
  | 0, b => b + 1
  | fuel + 1, b =>
    if h : b + 1 < bids.length then
      if bids.get ⟨b + 1, h⟩ < ap then skipGo bids ap fuel (b + 1) else b + 1
    else b + 1

/-- The bid-skipping loop with its canonical fuel (`b` increases every
step, so `bids.length - b` steps always suffice). -/
def skipAdv (bids : List ℚ) (ap : ℚ) (b : Nat) : Nat :=
  skipGo bids ap (bids.length - b) b

/-- The `while (1)` loop of `match` (book.c lines 313-331), with fuel.

`bids` and `asks` are the two price snapshots (`ZRANGE ... 0 -1`, ascending)
taken before the loop; they are NOT re-read as levels drain.  Each pass
calls `trade` on the prices at the current indices, then advances exactly as
the C does: on `ask_fully_matched`, `a++`, break when `a > a_ub`, and if the
current bid price dropped below the new ask price run the bid-skipping
loop; then (still in the same pass) on `bid_fully_matched`, `b++`, break
when `b` runs off the bid snapshot.  The third component of the result is
`true` when the loop reached one of its `break` statements and `false` if
the fuel ran out (the C would still be looping) — with the fuel chosen by
`matchRun` that case is unreachable, and a `trade` call always sets at
least one flag, so the no-flag fallthrough (where the C would loop forever)
is also unreachable; both facts are proved in the termination theorem. -/
def matchGo (tA0 : ℚ) (now : Int) (bids asks : List ℚ) (aub : Nat) :
    Nat → Nat → Nat → Book → Nat → Book × Nat × Bool
  | 0, _, _, bk, acc => (bk, acc, false)
  | fuel + 1, b, a, bk, acc =>
    let r := trade tA0 now (bids.getD b 0) (asks.getD a 0) bk
    let bk1 := r.1
    let t := acc + r.2.1
    if r.2.2.2 then
      if aub < a + 1 then (bk1, t, true)
      else
        let b1 := if bids.getD b 0 < asks.getD (a + 1) 0 then
                    skipAdv bids (asks.getD (a + 1) 0) b
                  else b
        if r.2.2.1 then
          if bids.length ≤ b1 + 1 then (bk1, t, true)
          else matchGo tA0 now bids asks aub fuel (b1 + 1) (a + 1) bk1 t
        else matchGo tA0 now bids asks aub fuel b1 (a + 1) bk1 t
    else if r.2.2.1 then
      if bids.length ≤ b + 1 then (bk1, t, true)
      else matchGo tA0 now bids asks aub fuel (b + 1) a bk1 t
    else (bk1, t, false)

/-- The index `b_lb` computed by `match` (book.c lines 292-295): scan the
bid snapshot downward from the top while the price is `>=` the lowest ask,
then step back up.  The scanned positions form the maximal suffix of bids
`>=` ask[0], so `b_lb` is the count of bids below that suffix. -/
def bLB (bids asks : List ℚ) : Nat :=
  bids.length - (bids.reverse.takeWhile (fun q => asks.getD 0 0 ≤ q)).length

/-- `a_ub + 1` for the index `a_ub` computed by `match` (book.c lines
296-299): scan the ask snapshot upward while the price is `<=` the highest
bid; the scanned positions form the maximal prefix of asks `<=` the last
bid, and `a_ub` is its length minus one (`-1` meaning an empty prefix). -/
def aCnt (bids asks : List ℚ) : Nat :=
  (asks.takeWhile (fun q => q ≤ bids.getLastD 0)).length

/-- `match()` (book.c lines 272-337), returning the final book, the trade
count, and the loop-completion flag of `matchGo`.

Steps, exactly as in the C: return 0 if either price snapshot is empty;
compute `b_lb` (scan `bid_prices` downward while the price is `>=` the
lowest ask, then step back up — i.e. the length of the maximal suffix of
bids that are `>=` ask[0]) and `a_ub` (scan `ask_prices` upward while the
price is `<=` the highest bid: `a_ub + 1` is the length of the maximal
prefix of asks that are `<=` the last bid); return 0 if `b_lb` runs off the
bid list or `a_ub < 0` (here: the prefix is empty); otherwise run the trade
loop from `b = b_lb`, `a = 0`.  The fuel `(n - b_lb) + (a_ub + 1) + 1`
exceeds the loop measure at entry. -/
def matchRun (tA0 : ℚ) (now : Int) (bk : Book) : Book × Nat × Bool :=
  let bids := bk.bidPrices
  if bids.length = 0 then (bk, 0, true)
  else
    let asks := bk.askPrices
    if asks.length = 0 then (bk, 0, true)
    else
      if bids.length ≤ bLB bids asks ∨ aCnt bids asks = 0 then (bk, 0, true)
      else matchGo tA0 now bids asks (aCnt bids asks - 1)
        (bids.length - bLB bids asks + aCnt bids asks + 1) (bLB bids asks) 0 bk 0

/-- `match()` as observed by the caller: the mutated book and the printed
trade count. -/
def matchBook (tA0 : ℚ) (now : Int) (bk : Book) : Book × Nat :=
  ((matchRun tA0 now bk).1, (matchRun tA0 now bk).2.1)

/-- One row of the `list` output (book.c lines 145-154): price level,
number of resting orders, level amount, and the running total accumulated
from the best price outward. -/
structure Row where
  price : ℚ
  count : Nat
  amount : ℚ
  total : ℚ
deriving DecidableEq

/-- Sum of the elements of an `amounts@PRICE` queue (book.c lines 139-142). -/
def qsum (l : List Order) : ℚ := (l.map (fun o => o.amount)).sum

/-- The row-building loop of `list` (book.c lines 135-157): visit the given
prices in order, carrying the running total (initialized to 0 per side at
line 135). -/
def snapRows (qs : List (ℚ × List Order)) : List ℚ → ℚ → List Row
  | [], _ => []
  | p :: ps, tot =>
    ⟨p, (qget qs p).length, qsum (qget qs p), tot + qsum (qget qs p)⟩
      :: snapRows qs ps (tot + qsum (qget qs p))

/-- The `bids` column of `list` (book.c lines 126-135): the bid prices are
fetched ascending (`ZRANGE`) and the row loop walks the reply from its last
element down, i.e. highest price first.  `list` issues only read commands,
so it is modelled as a pure function of the book. -/
def snapBids (bk : Book) : List Row := snapRows bk.bidQueues bk.bidPrices.reverse 0

/-- The `asks` column of `list`: the ask prices are fetched descending
(`ZREVRANGE`) and the row loop walks the reply from its last element down,
i.e. lowest price first. -/
def snapAsks (bk : Book) : List Row := snapRows bk.askQueues bk.askPrices 0

/-- The non-empty-level invariant: every price present in a side's sorted
set maps to a non-empty order queue. -/
def levelInv (bk : Book) : Prop :=
  (∀ p ∈ bk.bidPrices, qget bk.bidQueues p ≠ []) ∧
  (∀ p ∈ bk.askPrices, qget bk.askQueues p ≠ [])

/-- FIFO draining relation between the before and after states of one
order queue: some prefix of `k` earliest orders was fully consumed and
removed, and the oldest surviving order is either untouched (left
disjunct) or still at the front with only its amount rewritten (`LSET` at
index 0 keeps the user; right disjunct).  Every order behind it is
untouched.  So orders can only reach zero and leave front-first, in
placement order, and a partially filled order stays at the head. -/
def QDrain (q q' : List Order) : Prop :=
  ∃ k, q' = q.drop k ∨
    ∃ o x rest, q.drop k = o :: rest ∧ q' = ⟨o.user, x⟩ :: rest

/-- A small concrete book used to instantiate hypotheses of the general
theorems: one bid of 5 at 10 against one ask of 3 at 9. -/
def demoBook : Book :=
  ⟨[10], [9], [(10, [⟨"alice", 5⟩])], [(9, [⟨"bob", 3⟩])], []⟩

/-! ### Helper lemmas about the Redis primitives -/

theorem qget_qset_self (m : List (ℚ × List Order)) (p : ℚ) (v : List Order) :
    qget (qset m p v) p = v := by
  induction m with
  | nil => simp [qset, qget]
  | cons e m ih =>
    obtain ⟨q, w⟩ := e
    by_cases h : p = q
    · simp [qset, qget, h]
    · simp [qset, qget, h, ih]

theorem qget_qset_ne (m : List (ℚ × List Order)) (p p' : ℚ) (v : List Order)
    (h : p' ≠ p) : qget (qset m p v) p' = qget m p' := by
  induction m with
  | nil => simp [qset, qget, h]
  | cons e m ih =>
    obtain ⟨q, w⟩ := e
    by_cases hq : p = q
    · subst hq
      simp [qset, qget, h]
    · by_cases hq' : p' = q <;> simp [qset, qget, hq, hq', ih]

theorem qtotal_qset (m : List (ℚ × List Order)) (p : ℚ) (v : List Order) :
    qtotal (qset m p v) + (qget m p).length = qtotal m + v.length := by
  induction m with
  | nil => simp [qset, qget, qtotal]
  | cons e m ih =>
    obtain ⟨q, w⟩ := e
    by_cases h : p = q
    · simp [qset, qget, qtotal, h]
      omega
    · simp [qset, qget, qtotal, h] at ih ⊢
      omega

theorem mem_zadd {l : List ℚ} {p x : ℚ} (h : x ∈ zadd l p) : x ∈ l ∨ x = p := by
  induction l with
  | nil => simpa [zadd] using h
  | cons q l ih =>
    by_cases h1 : p < q
    · simp [zadd, h1] at h
      rcases h with h | h | h
      · exact Or.inr h
      · exact Or.inl (by simp [h])
      · exact Or.inl (by simp [h])
    · by_cases h2 : p = q
      · simp [zadd, h1, h2] at h
        rcases h with h | h
        · exact Or.inl (by simp [h])
        · exact Or.inl (by simp [h])
      · simp [zadd, h1, h2] at h
        rcases h with h | h
        · exact Or.inl (by simp [h])
        · rcases ih h with h' | h'
          · exact Or.inl (by simp [h'])
          · exact Or.inr h'

theorem mem_zrem {l : List ℚ} {p x : ℚ} (h : x ∈ zrem l p) : x ∈ l ∧ x ≠ p := by
  simp [zrem] at h
  exact h

theorem zadd_sorted {l : List ℚ} {p : ℚ} (h : l.Sorted (· < ·)) :
    (zadd l p).Sorted (· < ·) := by
  induction l with
  | nil => simp [zadd]
  | cons q l ih =>
    rw [List.sorted_cons] at h
    obtain ⟨hq, hl⟩ := h
    by_cases h1 : p < q
    · rw [zadd, if_pos h1, List.sorted_cons]
      refine ⟨?_, List.sorted_cons.2 ⟨hq, hl⟩⟩
      intro b hb
      rcases List.mem_cons.1 hb with rfl | hb
      · exact h1
      · exact h1.trans (hq b hb)
    · by_cases h2 : p = q
      · rw [zadd, if_neg h1, if_pos h2]
        exact List.sorted_cons.2 ⟨hq, hl⟩
      · rw [zadd, if_neg h1, if_neg h2, List.sorted_cons]
        refine ⟨?_, ih hl⟩
        intro b hb
        rcases mem_zadd hb with hb | rfl
        · exact hq b hb
        · exact lt_of_le_of_ne (not_lt.1 h1) (fun e => h2 e.symm)

/-- Indexing into the maximal satisfying prefix: any position strictly
inside `takeWhile p l` reads an element of `l` satisfying `p`. -/
theorem takeWhile_getD {l : List ℚ} {p : ℚ → Bool} {a : Nat}
    (h : a < (l.takeWhile p).length) : p (l.getD a 0) = true := by
  induction l generalizing a with
  | nil => simp [List.takeWhile] at h
  | cons x t ih =>
    by_cases hx : p x
    · rw [List.takeWhile_cons, if_pos hx] at h
      cases a with
      | zero => simpa [List.getD] using hx
      | succ a =>
        simp only [List.length_cons, Nat.succ_lt_succ_iff] at h
        simpa [List.getD] using ih h
    · rw [List.takeWhile_cons, if_neg hx] at h
      simp at h

/-- For a non-empty list, `getLastD` is `getD` at the last index. -/
theorem getLastD_eq_getD {l : List ℚ} (h : l ≠ []) :
    l.getLastD 0 = l.getD (l.length - 1) 0 := by
  have hl : 0 < l.length := List.length_pos.2 h
  rw [List.getLastD_eq_getLast?, List.getLast?_eq_get? ]
  rw [List.getD_eq_getD_get?]

/-- Monotone indexing into an ascending sorted list. -/
theorem sorted_getD_le {l : List ℚ} (hs : l.Sorted (· < ·)) {i j : Nat}
    (hij : i ≤ j) (hj : j < l.length) : l.getD i 0 ≤ l.getD j 0 := by
  rcases eq_or_lt_of_le hij with rfl | hlt
  · exact le_refl _
  · have hi : i < l.length := lt_trans hlt hj
    rw [List.getD_eq_get _ _ hi, List.getD_eq_get _ _ hj]
    exact le_of_lt (List.pairwise_iff_get.1 hs ⟨i, hi⟩ ⟨j, hj⟩ hlt)

/-! ### Helper lemmas about `QDrain` -/

theorem qdrain_refl (q : List Order) : QDrain q q := ⟨0, Or.inl rfl⟩

theorem qdrain_pop (o : Order) (l : List Order) : QDrain (o :: l) l :=
  ⟨1, Or.inl rfl⟩

theorem qdrain_set (o : Order) (x : ℚ) (l : List Order) :
    QDrain (o :: l) (⟨o.user, x⟩ :: l) := ⟨0, Or.inr ⟨o, x, l, rfl, rfl⟩⟩

theorem drop_of_drop_cons {q : List Order} {k : Nat} {o : Order} {rest : List Order}
    (h : q.drop k = o :: rest) : q.drop (k + 1) = rest := by
  have : (q.drop k).drop 1 = q.drop (k + 1) := List.drop_drop 1 k q
  rw [← this, h]
  rfl

theorem qdrain_trans {q q' q'' : List Order} (h1 : QDrain q q') (h2 : QDrain q' q'') :
    QDrain q q'' := by
  obtain ⟨k1, h1⟩ := h1
  obtain ⟨k2, h2⟩ := h2
  rcases h1 with e1 | ⟨o, x, rest, hdrop, he⟩
  · subst e1
    rcases h2 with e2 | ⟨o2, x2, rest2, hdrop2, he2⟩
    · exact ⟨k1 + k2, Or.inl (by rw [e2, List.drop_drop])⟩
    · refine ⟨k1 + k2, Or.inr ⟨o2, x2, rest2, ?_, he2⟩⟩
      rw [← hdrop2, List.drop_drop]
  · subst he
    have hrest : q.drop (k1 + 1) = rest := drop_of_drop_cons hdrop
    rcases h2 with e2 | ⟨o2, x2, rest2, hdrop2, he2⟩
    · cases k2 with
      | zero => exact ⟨k1, Or.inr ⟨o, x, rest, hdrop, by simpa using e2⟩⟩
      | succ j =>
        refine ⟨k1 + 1 + j, Or.inl ?_⟩
        rw [e2]
        show rest.drop j = _
        rw [← hrest, List.drop_drop]
    · cases k2 with
      | zero =>
        simp only [List.drop_zero] at hdrop2
        cases hdrop2
        exact ⟨k1, Or.inr ⟨o, x2, rest, hdrop, he2⟩⟩
      | succ j =>
        refine ⟨k1 + 1 + j, Or.inr ⟨o2, x2, rest2, ?_, he2⟩⟩
        rw [← hdrop2]
        show q.drop (k1 + 1 + j) = rest.drop j
        rw [← hrest, List.drop_drop]

/-! ### Structural lemmas about the `trade` loop -/

/-- A side's exhausted flag is returned set exactly when that side's final
queue is empty (the flag is set in the iteration that observes the empty
queue and breaks; the fuel-exhausted fallback returns non-empty queues with
both flags clear). -/
theorem tradeGo_exhaust (bp ap : ℚ) (now : Int) :
    ∀ (fuel : Nat) (bq aq : List Order) (tA : ℚ),
      ((tradeGo bp ap now fuel bq aq tA).bidExhausted = true ↔
        (tradeGo bp ap now fuel bq aq tA).bidQ = []) ∧
      ((tradeGo bp ap now fuel bq aq tA).askExhausted = true ↔
        (tradeGo bp ap now fuel bq aq tA).askQ = []) := by
  intro fuel
  induction fuel with
  | zero =>
    intro bq aq tA
    cases bq <;> cases aq <;> simp [tradeGo, List.isEmpty_iff]
  | succ fuel ih =>
    intro bq aq tA
    cases bq with
    | nil => simp [tradeGo, List.isEmpty_iff]
    | cons b bq =>
      cases aq with
      | nil => simp [tradeGo]
      | cons a aq =>
        by_cases h1 : a.amount < b.amount
        · simpa [tradeGo, h1] using ih _ _ _
        · by_cases h2 : b.amount < a.amount
          · simpa [tradeGo, h1, h2] using ih _ _ _
          · simpa [tradeGo, h1, h2] using ih _ _ _

/-- Each iteration of the trade loop removes at least one order, counting
one fill per iteration. -/
theorem tradeGo_progress (bp ap : ℚ) (now : Int) :
    ∀ (fuel : Nat) (bq aq : List Order) (tA : ℚ),
      (tradeGo bp ap now fuel bq aq tA).fills.length
        + (tradeGo bp ap now fuel bq aq tA).bidQ.length
        + (tradeGo bp ap now fuel bq aq tA).askQ.length
        ≤ bq.length + aq.length := by
  intro fuel
  induction fuel with
  | zero =>
    intro bq aq tA
    cases bq <;> cases aq <;> simp [tradeGo]
  | succ fuel ih =>
    intro bq aq tA
    cases bq with
    | nil => simp [tradeGo]
    | cons b bq =>
      cases aq with
      | nil => simp [tradeGo]
      | cons a aq =>
        by_cases h1 : a.amount < b.amount
        · have := ih (⟨b.user, b.amount - a.amount⟩ :: bq) aq a.amount
          simp [tradeGo, h1] at this ⊢
          omega
        · by_cases h2 : b.amount < a.amount
          · have := ih bq (⟨a.user, a.amount - b.amount⟩ :: aq) b.amount
            simp [tradeGo, h1, h2] at this ⊢
            omega
          · have := ih bq aq tA
            simp [tradeGo, h1, h2] at this ⊢
            omega

/-- With fuel at least the total number of resting orders the trade loop
always reaches its `break`: at least one exhausted flag is set. -/
theorem tradeGo_flag (bp ap : ℚ) (now : Int) :
    ∀ (fuel : Nat) (bq aq : List Order) (tA : ℚ),
      bq.length + aq.length ≤ fuel →
      (tradeGo bp ap now fuel bq aq tA).bidExhausted = true ∨
      (tradeGo bp ap now fuel bq aq tA).askExhausted = true := by
  intro fuel
  induction fuel with
  | zero =>
    intro bq aq tA h
    cases bq with
    | nil => simp [tradeGo]
    | cons b bq =>
      cases aq with
      | nil => simp [tradeGo]
      | cons a aq => simp at h
  | succ fuel ih =>
    intro bq aq tA h
    cases bq with
    | nil => simp [tradeGo]
    | cons b bq =>
      cases aq with
      | nil => simp [tradeGo]
      | cons a aq =>
        simp only [List.length_cons] at h
        by_cases h1 : a.amount < b.amount
        · have := ih (⟨b.user, b.amount - a.amount⟩ :: bq) aq a.amount (by simp; omega)
          simpa [tradeGo, h1] using this
        · by_cases h2 : b.amount < a.amount
          · have := ih bq (⟨a.user, a.amount - b.amount⟩ :: aq) b.amount (by simp; omega)
            simpa [tradeGo, h1, h2] using this
          · have := ih bq aq tA (by omega)
            simpa [tradeGo, h1, h2] using this

/-- Every fill recorded by one trade-loop run carries the bid price and ask
price the loop was called with. -/
theorem tradeGo_fill_prices (bp ap : ℚ) (now : Int) :
    ∀ (fuel : Nat) (bq aq : List Order) (tA : ℚ),
      ∀ f ∈ (tradeGo bp ap now fuel bq aq tA).fills,
        f.bidPrice = bp ∧ f.askPrice = ap := by
  intro fuel
  induction fuel with
  | zero =>
    intro bq aq tA
    cases bq <;> cases aq <;> simp [tradeGo]
  | succ fuel ih =>
    intro bq aq tA f hf
    cases bq with
    | nil => simp [tradeGo] at hf
    | cons b bq =>
      cases aq with
      | nil => simp [tradeGo] at hf
      | cons a aq =>
        by_cases h1 : a.amount < b.amount
        · simp only [tradeGo, if_pos h1, List.mem_cons] at hf
          rcases hf with rfl | hf
          · exact ⟨rfl, rfl⟩
          · exact ih _ _ _ f hf
        · by_cases h2 : b.amount < a.amount
          · simp only [tradeGo, if_neg h1, if_pos h2, List.mem_cons] at hf
            rcases hf with rfl | hf
            · exact ⟨rfl, rfl⟩
            · exact ih _ _ _ f hf
          · simp only [tradeGo, if_neg h1, if_neg h2, List.mem_cons] at hf
            rcases hf with rfl | hf
            · exact ⟨rfl, rfl⟩
            · exact ih _ _ _ f hf

/-- The trade loop drains each of its two queues front-first. -/
theorem tradeGo_qdrain (bp ap : ℚ) (now : Int) :
    ∀ (fuel : Nat) (bq aq : List Order) (tA : ℚ),
      QDrain bq (tradeGo bp ap now fuel bq aq tA).bidQ ∧
      QDrain aq (tradeGo bp ap now fuel bq aq tA).askQ := by
  intro fuel
  induction fuel with
  | zero =>
    intro bq aq tA
    cases bq <;> cases aq <;>
      exact ⟨by simp only [tradeGo]; exact qdrain_refl _,
             by simp only [tradeGo]; exact qdrain_refl _⟩
  | succ fuel ih =>
    intro bq aq tA
    cases bq with
    | nil =>
      exact ⟨by simp only [tradeGo]; exact qdrain_refl _,
             by simp only [tradeGo]; exact qdrain_refl _⟩
    | cons b bq =>
      cases aq with
      | nil =>
        exact ⟨by simp only [tradeGo]; exact qdrain_refl _,
               by simp only [tradeGo]; exact qdrain_refl _⟩
      | cons a aq =>
        by_cases h1 : a.amount < b.amount
        · have h := ih (⟨b.user, b.amount - a.amount⟩ :: bq) aq a.amount
          simp only [tradeGo, if_pos h1]
          exact ⟨qdrain_trans (qdrain_set b _ bq) h.1, qdrain_trans (qdrain_pop a aq) h.2⟩
        · by_cases h2 : b.amount < a.amount
          · have h := ih bq (⟨a.user, a.amount - b.amount⟩ :: aq) b.amount
            simp only [tradeGo, if_neg h1, if_pos h2]
            exact ⟨qdrain_trans (qdrain_pop b bq) h.1, qdrain_trans (qdrain_set a _ aq) h.2⟩
          · have h := ih bq aq tA
            simp only [tradeGo, if_neg h1, if_neg h2]
            exact ⟨qdrain_trans (qdrain_pop b bq) h.1, qdrain_trans (qdrain_pop a aq) h.2⟩

/-! ### Lemmas about `trade` acting on the book -/

theorem trade_level_inv (tA0 : ℚ) (now : Int) (bp ap : ℚ) (bk : Book)
    (h : levelInv bk) : levelInv (trade tA0 now bp ap bk).1 := by
  have hexb := (tradeGo_exhaust bp ap now
    ((qget bk.bidQueues bp).length + (qget bk.askQueues ap).length)
    (qget bk.bidQueues bp) (qget bk.askQueues ap) tA0).1
  have hexa := (tradeGo_exhaust bp ap now
    ((qget bk.bidQueues bp).length + (qget bk.askQueues ap).length)
    (qget bk.bidQueues bp) (qget bk.askQueues ap) tA0).2
  simp only [trade, tradeLoop, levelInv] at *
  constructor
  · intro p hp
    by_cases hf : (tradeGo bp ap now ((qget bk.bidQueues bp).length +
        (qget bk.askQueues ap).length) (qget bk.bidQueues bp) (qget bk.askQueues ap)
        tA0).bidExhausted = true
    · rw [if_pos hf] at hp
      obtain ⟨hpm, hpne⟩ := mem_zrem hp
      rw [qget_qset_ne _ _ _ _ hpne]
      exact h.1 p hpm
    · rw [if_neg hf] at hp
      by_cases hpe : p = bp
      · subst hpe
        rw [qget_qset_self]
        intro hnil
        exact hf (hexb.2 hnil)
      · rw [qget_qset_ne _ _ _ _ hpe]
        exact h.1 p hp
  · intro p hp
    by_cases hf : (tradeGo bp ap now ((qget bk.bidQueues bp).length +
        (qget bk.askQueues ap).length) (qget bk.bidQueues bp) (qget bk.askQueues ap)
        tA0).askExhausted = true
    · rw [if_pos hf] at hp
      obtain ⟨hpm, hpne⟩ := mem_zrem hp
      rw [qget_qset_ne _ _ _ _ hpne]
      exact h.2 p hpm
    · rw [if_neg hf] at hp
      by_cases hpe : p = ap
      · subst hpe
        rw [qget_qset_self]
        intro hnil
        exact hf (hexa.2 hnil)
      · rw [qget_qset_ne _ _ _ _ hpe]
        exact h.2 p hp

theorem trade_count_qtotal (tA0 : ℚ) (now : Int) (bp ap : ℚ) (bk : Book) :
    (trade tA0 now bp ap bk).2.1
      + qtotal (trade tA0 now bp ap bk).1.bidQueues
      + qtotal (trade tA0 now bp ap bk).1.askQueues
      ≤ qtotal bk.bidQueues + qtotal bk.askQueues := by
  have hprog := tradeGo_progress bp ap now
    ((qget bk.bidQueues bp).length + (qget bk.askQueues ap).length)
    (qget bk.bidQueues bp) (qget bk.askQueues ap) tA0
  have hb := qtotal_qset bk.bidQueues bp
    (tradeGo bp ap now ((qget bk.bidQueues bp).length + (qget bk.askQueues ap).length)
      (qget bk.bidQueues bp) (qget bk.askQueues ap) tA0).bidQ
  have ha := qtotal_qset bk.askQueues ap
    (tradeGo bp ap now ((qget bk.bidQueues bp).length + (qget bk.askQueues ap).length)
      (qget bk.bidQueues bp) (qget bk.askQueues ap) tA0).askQ
  simp only [trade, tradeLoop]
  omega

theorem trade_flag (tA0 : ℚ) (now : Int) (bp ap : ℚ) (bk : Book) :
    (trade tA0 now bp ap bk).2.2.1 = true ∨ (trade tA0 now bp ap bk).2.2.2 = true := by
  simpa only [trade, tradeLoop] using
    tradeGo_flag bp ap now _ (qget bk.bidQueues bp) (qget bk.askQueues ap) tA0 le_rfl

theorem trade_matched (tA0 : ℚ) (now : Int) (bp ap : ℚ) (bk : Book) :
    ∃ fs : List Fill, (trade tA0 now bp ap bk).1.matched = fs.reverse ++ bk.matched ∧
      (∀ f ∈ fs, f.bidPrice = bp ∧ f.askPrice = ap) := by
  refine ⟨(tradeLoop bp ap now (qget bk.bidQueues bp) (qget bk.askQueues ap) tA0).fills,
    rfl, ?_⟩
  exact tradeGo_fill_prices bp ap now _ _ _ _

/-! ### Lemmas about the bid-skipping loop -/

theorem skipGo_ge (bids : List ℚ) (ap : ℚ) :
    ∀ (fuel b : Nat), b + 1 ≤ skipGo bids ap fuel b := by
  intro fuel
  induction fuel with
  | zero => intro b; simp [skipGo]
  | succ fuel ih =>
    intro b
    simp only [skipGo]
    by_cases h : b + 1 < bids.length
    · rw [dif_pos h]
      by_cases h2 : bids.get ⟨b + 1, h⟩ < ap
      · rw [if_pos h2]
        exact le_trans (by omega) (ih (b + 1))
      · rw [if_neg h2]
    · rw [dif_neg h]

/-- If the last snapshot bid price is at least `ap` then the skipping loop,
started strictly inside the snapshot, stops at an in-range index holding a
price at least `ap` — it never walks off the end. -/
theorem skipGo_bound (bids : List ℚ) (ap : ℚ)
    (hlast : ap ≤ bids.getD (bids.length - 1) 0) :
    ∀ (fuel b : Nat), b + 1 < bids.length → bids.length - b ≤ fuel →
      skipGo bids ap fuel b < bids.length ∧
      ap ≤ bids.getD (skipGo bids ap fuel b) 0 := by
  intro fuel
  induction fuel with
  | zero =>
    intro b hb hfuel
    omega
  | succ fuel ih =>
    intro b hb hfuel
    simp only [skipGo]
    rw [dif_pos hb]
    by_cases h2 : bids.get ⟨b + 1, hb⟩ < ap
    · rw [if_pos h2]
      have hne : b + 1 ≠ bids.length - 1 := by
        intro he
        rw [← he, List.getD_eq_get _ _ hb] at hlast
        exact absurd hlast (not_le.2 h2)
      exact ih (b + 1) (by omega) (by omega)
    · rw [if_neg h2]
      exact ⟨hb, by rw [List.getD_eq_get _ _ hb]; exact not_lt.1 h2⟩

/-! ### Lemmas about the `match` loop -/

theorem matchGo_level_inv (tA0 : ℚ) (now : Int) (bids asks : List ℚ) (aub : Nat) :
    ∀ (fuel b a : Nat) (bk : Book) (acc : Nat), levelInv bk →
      levelInv (matchGo tA0 now bids asks aub fuel b a bk acc).1 := by
  intro fuel
  induction fuel with
  | zero => intro b a bk acc h; exact h
  | succ fuel ih =>
    intro b a bk acc h
    have h1 : levelInv (trade tA0 now (bids.getD b 0) (asks.getD a 0) bk).1 :=
      trade_level_inv _ _ _ _ _ h
    simp only [matchGo]
    by_cases hax : (trade tA0 now (bids.getD b 0) (asks.getD a 0) bk).2.2.2 = true
    · simp only [hax, if_true]
      by_cases haub : aub < a + 1
      · simp only [haub, if_true]
        exact h1
      · simp only [haub, if_false]
        by_cases hbx : (trade tA0 now (bids.getD b 0) (asks.getD a 0) bk).2.2.1 = true
        · simp only [hbx, if_true]
          by_cases hlen : bids.length ≤
              (if bids.getD b 0 < asks.getD (a + 1) 0 then
                skipAdv bids (asks.getD (a + 1) 0) b else b) + 1
          · simp only [hlen, if_true]
            exact h1
          · simp only [hlen, if_false]
            exact ih _ _ _ _ h1
        · simp only [Bool.not_eq_true] at hbx
          simp only [hbx, Bool.false_eq_true, if_false]
          exact ih _ _ _ _ h1
    · simp only [Bool.not_eq_true] at hax
      simp only [hax, Bool.false_eq_true, if_false]
      by_cases hbx : (trade tA0 now (bids.getD b 0) (asks.getD a 0) bk).2.2.1 = true
      · simp only [hbx, if_true]
        by_cases hlen : bids.length ≤ b + 1
        · simp only [hlen, if_true]
          exact h1
        · simp only [hlen, if_false]
          exact ih _ _ _ _ h1
      · simp only [Bool.not_eq_true] at hbx
        simp only [hbx, Bool.false_eq_true, if_false]
        exact h1

theorem matchGo_count (tA0 : ℚ) (now : Int) (bids asks : List ℚ) (aub : Nat) :
    ∀ (fuel b a : Nat) (bk : Book) (acc : Nat),
      (matchGo tA0 now bids asks aub fuel b a bk acc).2.1
        ≤ acc + qtotal bk.bidQueues + qtotal bk.askQueues := by
  intro fuel
  induction fuel with
  | zero => intro b a bk acc; simp only [matchGo]; omega
  | succ fuel ih =>
    intro b a bk acc
    have hq := trade_count_qtotal tA0 now (bids.getD b 0) (asks.getD a 0) bk
    simp only [matchGo]
    by_cases hax : (trade tA0 now (bids.getD b 0) (asks.getD a 0) bk).2.2.2 = true
    · simp only [hax, if_true]
      by_cases haub : aub < a + 1
      · simp only [haub, if_true]
        omega
      · simp only [haub, if_false]
        by_cases hbx : (trade tA0 now (bids.getD b 0) (asks.getD a 0) bk).2.2.1 = true
        · simp only [hbx, if_true]
          by_cases hlen : bids.length ≤
              (if bids.getD b 0 < asks.getD (a + 1) 0 then
                skipAdv bids (asks.getD (a + 1) 0) b else b) + 1
          · simp only [hlen, if_true]
            omega
          · simp only [hlen, if_false]
            have := ih ((if bids.getD b 0 < asks.getD (a + 1) 0 then
                skipAdv bids (asks.getD (a + 1) 0) b else b) + 1) (a + 1)
              (trade tA0 now (bids.getD b 0) (asks.getD a 0) bk).1
              (acc + (trade tA0 now (bids.getD b 0) (asks.getD a 0) bk).2.1)
            omega
        · simp only [Bool.not_eq_true] at hbx
          simp only [hbx, Bool.false_eq_true, if_false]
          have := ih (if bids.getD b 0 < asks.getD (a + 1) 0 then
                skipAdv bids (asks.getD (a + 1) 0) b else b) (a + 1)
              (trade tA0 now (bids.getD b 0) (asks.getD a 0) bk).1
              (acc + (trade tA0 now (bids.getD b 0) (asks.getD a 0) bk).2.1)
          omega
    · simp only [Bool.not_eq_true] at hax
      simp only [hax, Bool.false_eq_true, if_false]
      by_cases hbx : (trade tA0 now (bids.getD b 0) (asks.getD a 0) bk).2.2.1 = true
      · simp only [hbx, if_true]
        by_cases hlen : bids.length ≤ b + 1
        · simp only [hlen, if_true]
          omega
        · simp only [hlen, if_false]
          have := ih (b + 1) a (trade tA0 now (bids.getD b 0) (asks.getD a 0) bk).1
            (acc + (trade tA0 now (bids.getD b 0) (asks.getD a 0) bk).2.1)
          omega
      · simp only [Bool.not_eq_true] at hbx
        simp only [hbx, Bool.false_eq_true, if_false]
        omega

/-- With fuel exceeding the loop measure `(n - b) + (a_ub + 1 - a)` the
`match` loop always reaches one of its `break` statements. -/
theorem matchGo_complete (tA0 : ℚ) (now : Int) (bids asks : List ℚ) (aub : Nat)
    (hH : ∀ i, i ≤ aub → asks.getD i 0 ≤ bids.getD (bids.length - 1) 0) :
    ∀ (fuel b a : Nat) (bk : Book) (acc : Nat), b < bids.length → a ≤ aub →
      bids.length - b + (aub + 1 - a) ≤ fuel →
      (matchGo tA0 now bids asks aub fuel b a bk acc).2.2 = true := by
  intro fuel
  induction fuel with
  | zero =>
    intro b a bk acc hb ha hfuel
    omega
  | succ fuel ih =>
    intro b a bk acc hb ha hfuel
    simp only [matchGo]
    by_cases hax : (trade tA0 now (bids.getD b 0) (asks.getD a 0) bk).2.2.2 = true
    · simp only [hax, if_true]
      by_cases haub : aub < a + 1
      · simp only [haub, if_true]
      · simp only [haub, if_false]
        have ha1 : a + 1 ≤ aub := by omega
        have hb1 : b ≤ (if bids.getD b 0 < asks.getD (a + 1) 0 then
            skipAdv bids (asks.getD (a + 1) 0) b else b) := by
          by_cases hskip : bids.getD b 0 < asks.getD (a + 1) 0
          · rw [if_pos hskip]
            have := skipGo_ge bids (asks.getD (a + 1) 0) (bids.length - b) b
            simp only [skipAdv]
            omega
          · rw [if_neg hskip]
        have hb1n : (if bids.getD b 0 < asks.getD (a + 1) 0 then
            skipAdv bids (asks.getD (a + 1) 0) b else b) < bids.length := by
          by_cases hskip : bids.getD b 0 < asks.getD (a + 1) 0
          · rw [if_pos hskip]
            have hlast : asks.getD (a + 1) 0 ≤ bids.getD (bids.length - 1) 0 :=
              hH (a + 1) ha1
            have hbne : b + 1 < bids.length := by
              rcases Nat.lt_or_ge (b + 1) bids.length with h | h
              · exact h
              · exfalso
                have : b = bids.length - 1 := by omega
                rw [this] at hskip
                exact absurd hlast (not_le.2 hskip)
            exact (skipGo_bound bids (asks.getD (a + 1) 0) (hH (a + 1) ha1)
              (bids.length - b) b hbne le_rfl).1
          · rw [if_neg hskip]
            exact hb
        by_cases hbx : (trade tA0 now (bids.getD b 0) (asks.getD a 0) bk).2.2.1 = true
        · simp only [hbx, if_true]
          by_cases hlen : bids.length ≤
              (if bids.getD b 0 < asks.getD (a + 1) 0 then
                skipAdv bids (asks.getD (a + 1) 0) b else b) + 1
          · simp only [hlen, if_true]
          · simp only [hlen, if_false]
            exact ih _ _ _ _ (by omega) ha1 (by omega)
        · simp only [Bool.not_eq_true] at hbx
          simp only [hbx, Bool.false_eq_true, if_false]
          exact ih _ _ _ _ hb1n ha1 (by omega)
    · simp only [Bool.not_eq_true] at hax
      simp only [hax, Bool.false_eq_true, if_false]
      by_cases hbx : (trade tA0 now (bids.getD b 0) (asks.getD a 0) bk).2.2.1 = true
      · simp only [hbx, if_true]
        by_cases hlen : bids.length ≤ b + 1
        · simp only [hlen, if_true]
        · simp only [hlen, if_false]
          exact ih _ _ _ _ (by omega) ha (by omega)
      · exfalso
        rcases trade_flag tA0 now (bids.getD b 0) (asks.getD a 0) bk with h | h
        · exact hbx h
        · rw [h] at hax
          simp at hax

theorem chain_const (g : Fill → ℚ) (c : ℚ) :
    ∀ (l : List Fill), (∀ f ∈ l, g f = c) →
      List.Chain' (fun f f' => g f ≤ g f') l := by
  intro l
  induction l with
  | nil => intro _; exact List.chain'_nil
  | cons x t ih =>
    intro h
    cases t with
    | nil => exact List.chain'_singleton x
    | cons y t' =>
      refine List.chain'_cons.2 ⟨?_, ih ?_⟩
      · rw [h x (by simp), h y (by simp)]
      · intro f hf
        exact h f (List.mem_cons_of_mem _ hf)

theorem fills_glue {bp ap bp' ap' : ℚ} {fs0 fs' : List Fill}
    (hp0 : ∀ f ∈ fs0, f.bidPrice = bp ∧ f.askPrice = ap)
    (hc1 : List.Chain' (fun f g => f.bidPrice ≤ g.bidPrice) fs')
    (hc2 : List.Chain' (fun f g => f.askPrice ≤ g.askPrice) fs')
    (hlb : ∀ f ∈ fs', bp' ≤ f.bidPrice ∧ ap' ≤ f.askPrice)
    (hbb : bp ≤ bp') (haa : ap ≤ ap') :
    List.Chain' (fun f g => f.bidPrice ≤ g.bidPrice) (fs0 ++ fs') ∧
    List.Chain' (fun f g => f.askPrice ≤ g.askPrice) (fs0 ++ fs') ∧
    ∀ f ∈ fs0 ++ fs', bp ≤ f.bidPrice ∧ ap ≤ f.askPrice := by
  refine ⟨?_, ?_, ?_⟩
  · rw [List.chain'_append]
    refine ⟨chain_const (fun f => f.bidPrice) bp fs0 (fun f hf => (hp0 f hf).1), hc1, ?_⟩
    intro x hx y hy
    have hx' := (hp0 x (List.mem_of_mem_getLast? hx)).1
    have hy' := (hlb y (List.mem_of_mem_head? hy)).1
    calc x.bidPrice = bp := hx'
      _ ≤ bp' := hbb
      _ ≤ y.bidPrice := hy'
  · rw [List.chain'_append]
    refine ⟨chain_const (fun f => f.askPrice) ap fs0 (fun f hf => (hp0 f hf).2), hc2, ?_⟩
    intro x hx y hy
    have hx' := (hp0 x (List.mem_of_mem_getLast? hx)).2
    have hy' := (hlb y (List.mem_of_mem_head? hy)).2
    calc x.askPrice = ap := hx'
      _ ≤ ap' := haa
      _ ≤ y.askPrice := hy'
  · intro f hf
    rcases List.mem_append.1 hf with hf | hf
    · exact ⟨le_of_eq (hp0 f hf).1.symm, le_of_eq (hp0 f hf).2.symm⟩
    · exact ⟨le_trans hbb (hlb f hf).1, le_trans haa (hlb f hf).2⟩

/-- All fills a `match` loop run appends are price-monotone: the fill
sequence (chronological) has non-decreasing bid prices and non-decreasing
ask prices, every fill at prices at least those at the starting indices. -/
theorem matchGo_mono (tA0 : ℚ) (now : Int) (bids asks : List ℚ) (aub : Nat)
    (hsb : bids.Sorted (· < ·)) (hsa : asks.Sorted (· < ·))
    (haub : aub + 1 ≤ asks.length)
    (hH : ∀ i, i ≤ aub → asks.getD i 0 ≤ bids.getD (bids.length - 1) 0) :
    ∀ (fuel b a : Nat) (bk : Book) (acc : Nat), b < bids.length → a ≤ aub →
      ∃ fs : List Fill,
        (matchGo tA0 now bids asks aub fuel b a bk acc).1.matched
          = fs.reverse ++ bk.matched ∧
        List.Chain' (fun f g => f.bidPrice ≤ g.bidPrice) fs ∧
        List.Chain' (fun f g => f.askPrice ≤ g.askPrice) fs ∧
        ∀ f ∈ fs, bids.getD b 0 ≤ f.bidPrice ∧ asks.getD a 0 ≤ f.askPrice := by
  intro fuel
  induction fuel with
  | zero =>
    intro b a bk acc hb ha
    exact ⟨[], by simp [matchGo], List.chain'_nil, List.chain'_nil, by simp⟩
  | succ fuel ih =>
    intro b a bk acc hb ha
    obtain ⟨fs0, hm0, hp0⟩ := trade_matched tA0 now (bids.getD b 0) (asks.getD a 0) bk
    have hpkg0 : List.Chain' (fun f g => f.bidPrice ≤ g.bidPrice) fs0 ∧
        List.Chain' (fun f g => f.askPrice ≤ g.askPrice) fs0 ∧
        ∀ f ∈ fs0, bids.getD b 0 ≤ f.bidPrice ∧ asks.getD a 0 ≤ f.askPrice := by
      refine ⟨chain_const (fun f => f.bidPrice) _ fs0 (fun f hf => (hp0 f hf).1),
        chain_const (fun f => f.askPrice) _ fs0 (fun f hf => (hp0 f hf).2), ?_⟩
      intro f hf
      exact ⟨le_of_eq (hp0 f hf).1.symm, le_of_eq (hp0 f hf).2.symm⟩
    simp only [matchGo]
    by_cases hax : (trade tA0 now (bids.getD b 0) (asks.getD a 0) bk).2.2.2 = true
    · simp only [hax, if_true]
      by_cases haub' : aub < a + 1
      · simp only [haub', if_true]
        exact ⟨fs0, hm0, hpkg0⟩
      · simp only [haub', if_false]
        have ha1 : a + 1 ≤ aub := by omega
        have ha1l : a + 1 < asks.length := by omega
        have haa : asks.getD a 0 ≤ asks.getD (a + 1) 0 :=
          sorted_getD_le hsa (by omega) ha1l
        set b1 := (if bids.getD b 0 < asks.getD (a + 1) 0 then
            skipAdv bids (asks.getD (a + 1) 0) b else b) with hb1def
        have hb1 : b ≤ b1 := by
          rw [hb1def]
          by_cases hskip : bids.getD b 0 < asks.getD (a + 1) 0
          · rw [if_pos hskip]
            have := skipGo_ge bids (asks.getD (a + 1) 0) (bids.length - b) b
            simp only [skipAdv]
            omega
          · rw [if_neg hskip]
        have hb1n : b1 < bids.length := by
          rw [hb1def]
          by_cases hskip : bids.getD b 0 < asks.getD (a + 1) 0
          · rw [if_pos hskip]
            have hlast : asks.getD (a + 1) 0 ≤ bids.getD (bids.length - 1) 0 :=
              hH (a + 1) ha1
            have hbne : b + 1 < bids.length := by
              rcases Nat.lt_or_ge (b + 1) bids.length with h | h
              · exact h
              · exfalso
                have : b = bids.length - 1 := by omega
                rw [this] at hskip
                exact absurd hlast (not_le.2 hskip)
            exact (skipGo_bound bids (asks.getD (a + 1) 0) hlast
              (bids.length - b) b hbne le_rfl).1
          · rw [if_neg hskip]
            exact hb
        by_cases hbx : (trade tA0 now (bids.getD b 0) (asks.getD a 0) bk).2.2.1 = true
        · simp only [hbx, if_true]
          by_cases hlen : bids.length ≤ b1 + 1
          · simp only [hlen, if_true]
            exact ⟨fs0, hm0, hpkg0⟩
          · simp only [hlen, if_false]
            obtain ⟨fs', hm', hc1', hc2', hlb'⟩ := ih (b1 + 1) (a + 1)
              (trade tA0 now (bids.getD b 0) (asks.getD a 0) bk).1
              (acc + (trade tA0 now (bids.getD b 0) (asks.getD a 0) bk).2.1)
              (by omega) ha1
            have hbb : bids.getD b 0 ≤ bids.getD (b1 + 1) 0 :=
              sorted_getD_le hsb (by omega) (by omega)
            obtain ⟨hc1, hc2, hlb⟩ := fills_glue hp0 hc1' hc2' hlb' hbb haa
            refine ⟨fs0 ++ fs', ?_, hc1, hc2, hlb⟩
            rw [hm', hm0, List.reverse_append, List.append_assoc]
        · simp only [Bool.not_eq_true] at hbx
          simp only [hbx, Bool.false_eq_true, if_false]
          obtain ⟨fs', hm', hc1', hc2', hlb'⟩ := ih b1 (a + 1)
            (trade tA0 now (bids.getD b 0) (asks.getD a 0) bk).1
            (acc + (trade tA0 now (bids.getD b 0) (asks.getD a 0) bk).2.1)
            hb1n ha1
          have hbb : bids.getD b 0 ≤ bids.getD b1 0 :=
            sorted_getD_le hsb hb1 hb1n
          obtain ⟨hc1, hc2, hlb⟩ := fills_glue hp0 hc1' hc2' hlb' hbb haa
          refine ⟨fs0 ++ fs', ?_, hc1, hc2, hlb⟩
          rw [hm', hm0, List.reverse_append, List.append_assoc]
    · simp only [Bool.not_eq_true] at hax
      simp only [hax, Bool.false_eq_true, if_false]
      by_cases hbx : (trade tA0 now (bids.getD b 0) (asks.getD a 0) bk).2.2.1 = true
      · simp only [hbx, if_true]
        by_cases hlen : bids.length ≤ b + 1
        · simp only [hlen, if_true]
          exact ⟨fs0, hm0, hpkg0⟩
        · simp only [hlen, if_false]
          obtain ⟨fs', hm', hc1', hc2', hlb'⟩ := ih (b + 1) a _
            (acc + (trade tA0 now (bids.getD b 0) (asks.getD a 0) bk).2.1)
            (by omega) ha
          have hbb : bids.getD b 0 ≤ bids.getD (b + 1) 0 :=
            sorted_getD_le hsb (by omega) (by omega)
          obtain ⟨hc1, hc2, hlb⟩ := fills_glue hp0 hc1' hc2' hlb' hbb le_rfl
          refine ⟨fs0 ++ fs', ?_, hc1, hc2, hlb⟩
          rw [hm', hm0, List.reverse_append, List.append_assoc]
      · simp only [Bool.not_eq_true] at hbx
        simp only [hbx, Bool.false_eq_true, if_false]
        exact ⟨fs0, hm0, hpkg0⟩

/-- The `a_ub` prefix property: every ask index inside the prefix counted
by `aCnt` holds a price at most the last (highest) snapshot bid price. -/
theorem aCnt_le (bids asks : List ℚ) (hne : bids ≠ []) :
    ∀ i, i < aCnt bids asks → asks.getD i 0 ≤ bids.getD (bids.length - 1) 0 := by
  intro i hi
  have h := takeWhile_getD (l := asks) (p := fun q => decide (q ≤ bids.getLastD 0)) hi
  rw [← getLastD_eq_getD hne]
  simpa using h

theorem matchRun_complete (tA0 : ℚ) (now : Int) (bk : Book) :
    (matchRun tA0 now bk).2.2 = true := by
  simp only [matchRun]
  by_cases h1 : bk.bidPrices.length = 0
  · simp [h1]
  · simp only [h1, if_false]
    by_cases h2 : bk.askPrices.length = 0
    · simp [h2]
    · simp only [h2, if_false]
      by_cases h3 : bk.bidPrices.length ≤ bLB bk.bidPrices bk.askPrices ∨
          aCnt bk.bidPrices bk.askPrices = 0
      · simp [h3]
      · simp only [h3, if_false]
        push_neg at h3
        obtain ⟨hblb, hacnt⟩ := h3
        have hne : bk.bidPrices ≠ [] := by
          intro h
          exact h1 (by simp [h])
        apply matchGo_complete
        · intro i hi
          exact aCnt_le _ _ hne i (by omega)
        · omega
        · omega
        · omega

theorem matchRun_count (tA0 : ℚ) (now : Int) (bk : Book) :
    (matchRun tA0 now bk).2.1 ≤ qtotal bk.bidQueues + qtotal bk.askQueues := by
  simp only [matchRun]
  by_cases h1 : bk.bidPrices.length = 0
  · simp [h1]
  · simp only [h1, if_false]
    by_cases h2 : bk.askPrices.length = 0
    · simp [h2]
    · simp only [h2, if_false]
      by_cases h3 : bk.bidPrices.length ≤ bLB bk.bidPrices bk.askPrices ∨
          aCnt bk.bidPrices bk.askPrices = 0
      · simp [h3]
      · simp only [h3, if_false]
        have := matchGo_count tA0 now bk.bidPrices bk.askPrices
          (aCnt bk.bidPrices bk.askPrices - 1)
          (bk.bidPrices.length - bLB bk.bidPrices bk.askPrices +
            aCnt bk.bidPrices bk.askPrices + 1)
          (bLB bk.bidPrices bk.askPrices) 0 bk 0
        omega

theorem matchRun_level_inv (tA0 : ℚ) (now : Int) (bk : Book) (h : levelInv bk) :
    levelInv (matchRun tA0 now bk).1 := by
  simp only [matchRun]
  by_cases h1 : bk.bidPrices.length = 0
  · simpa [h1] using h
  · simp only [h1, if_false]
    by_cases h2 : bk.askPrices.length = 0
    · simpa [h2] using h
    · simp only [h2, if_false]
      by_cases h3 : bk.bidPrices.length ≤ bLB bk.bidPrices bk.askPrices ∨
          aCnt bk.bidPrices bk.askPrices = 0
      · simpa [h3] using h
      · simp only [h3, if_false]
        exact matchGo_level_inv _ _ _ _ _ _ _ _ _ _ h

/-- `matchRun` level form of the fill-monotonicity lemma. -/
theorem matchRun_mono (tA0 : ℚ) (now : Int) (bk : Book)
    (hsb : bk.bidPrices.Sorted (· < ·)) (hsa : bk.askPrices.Sorted (· < ·)) :
    ∃ fs : List Fill,
      (matchRun tA0 now bk).1.matched = fs.reverse ++ bk.matched ∧
      List.Chain' (fun f g => f.bidPrice ≤ g.bidPrice) fs ∧
      List.Chain' (fun f g => f.askPrice ≤ g.askPrice) fs ∧
      ∀ f ∈ fs, bk.bidPrices.getD (bLB bk.bidPrices bk.askPrices) 0 ≤ f.bidPrice ∧
        bk.askPrices.getD 0 0 ≤ f.askPrice := by
  simp only [matchRun]
  by_cases h1 : bk.bidPrices.length = 0
  · exact ⟨[], by simp [h1], List.chain'_nil, List.chain'_nil, by simp⟩
  · simp only [h1, if_false]
    by_cases h2 : bk.askPrices.length = 0
    · exact ⟨[], by simp [h2], List.chain'_nil, List.chain'_nil, by simp⟩
    · simp only [h2, if_false]
      by_cases h3 : bk.bidPrices.length ≤ bLB bk.bidPrices bk.askPrices ∨
          aCnt bk.bidPrices bk.askPrices = 0
      · exact ⟨[], by simp [h3], List.chain'_nil, List.chain'_nil, by simp⟩
      · simp only [h3, if_false]
        push_neg at h3
        obtain ⟨hblb, hacnt⟩ := h3
        have hne : bk.bidPrices ≠ [] := by
          intro h
          exact h1 (by simp [h])
        have hcntlen : aCnt bk.bidPrices bk.askPrices ≤ bk.askPrices.length :=
          (List.takeWhile_prefix _).length_le
        exact matchGo_mono tA0 now bk.bidPrices bk.askPrices _ hsb hsa (by omega)
          (fun i hi => aCnt_le _ _ hne i (by omega)) _ _ 0 bk 0 hblb (by omega)

/-! ### Lemmas about `bid_ask`, `clearBook` and the snapshot -/

theorem bid_ask_level_inv (s : Side) (u : String) (p amt : ℚ) (bk : Book)
    (h : levelInv bk) : levelInv (bid_ask s u p amt bk) := by
  cases s with
  | bid =>
    constructor
    · intro q hq
      simp only [bid_ask] at hq ⊢
      by_cases hqp : q = p
      · subst hqp
        rw [qget_qset_self]
        simp
      · rw [qget_qset_ne _ _ _ _ hqp]
        rcases mem_zadd hq with hq | hq
        · exact h.1 q hq
        · exact absurd hq hqp
    · intro q hq
      simp only [bid_ask] at hq ⊢
      exact h.2 q hq
  | ask =>
    constructor
    · intro q hq
      simp only [bid_ask] at hq ⊢
      exact h.1 q hq
    · intro q hq
      simp only [bid_ask] at hq ⊢
      by_cases hqp : q = p
      · subst hqp
        rw [qget_qset_self]
        simp
      · rw [qget_qset_ne _ _ _ _ hqp]
        rcases mem_zadd hq with hq | hq
        · exact h.2 q hq
        · exact absurd hq hqp

theorem clearBook_level_inv (bk : Book) : levelInv (clearBook bk) := by
  constructor <;> intro p hp <;> simp [clearBook] at hp

theorem snapRows_map_price (qs : List (ℚ × List Order)) :
    ∀ (ps : List ℚ) (t : ℚ), (snapRows qs ps t).map Row.price = ps := by
  intro ps
  induction ps with
  | nil => intro t; simp [snapRows]
  | cons p ps ih => intro t; simp [snapRows, ih]

theorem snapRows_total (qs : List (ℚ × List Order)) :
    ∀ (ps : List ℚ) (t : ℚ) (i : Nat) (h : i < (snapRows qs ps t).length),
      ((snapRows qs ps t).get ⟨i, h⟩).total
        = t + (((snapRows qs ps t).take (i + 1)).map Row.amount).sum := by
  intro ps
  induction ps with
  | nil => intro t i h; simp [snapRows] at h
  | cons p ps ih =>
    intro t i h
    cases i with
    | zero => simp [snapRows]
    | succ i =>
      simp only [snapRows, List.get_cons_succ, List.take_succ_cons, List.map_cons,
        List.sum_cons]
      rw [ih (t + qsum (qget qs p)) i (by simpa [snapRows] using h)]
      ring
/-! ### Claim theorems -/

/-- C1 (code bug): the claim says every recorded fill's amount equals
`min(bid head remaining, ask head remaining)` at the moment of the fill, in
particular when the two heads are equal.  In the C, the equal-heads branch
(book.c lines 215-218) does not assign `trade_amount`, so the recorded
amount is the PREVIOUS iteration's trade amount (garbage on a first
iteration).  Failing input: one bid of 5 at price 10 against asks of 3 and
2 at price 10.  The first fill correctly records 3 and leaves heads 2 and
2; the second fill then records 3 again — for any initial value `tA0` of
the uninitialized variable — although `min 2 2 = 2 ≠ 3`.  Both heads do
reach zero, so only the amount clause is violated. -/
theorem trade_records_stale_amount_on_equal_heads :
    ∀ tA0 : ℚ,
      (tradeLoop 10 10 0 [⟨"B", 5⟩] [⟨"A1", 3⟩, ⟨"A2", 2⟩] tA0).fills.map
          (fun f => f.amount) = [3, 3]
      ∧ min (2 : ℚ) 2 ≠ 3 := by
  intro t
  constructor
  · norm_num [tradeLoop, tradeGo]
  · norm_num

set_option maxHeartbeats 4000000 in
/-- C3 (code bug): `match` is claimed idempotent, and its own comment says
it "eliminates the overlap between bid prices and ask prices".  But when a
`trade` call exhausts both sides simultaneously, `match` first advances `a`
and runs the bid-skipping loop, and then the `bid_fully_matched` branch
advances `b` once more (book.c lines 318-330), stepping over a still
crossing bid level.  Input: bids 5@10 and 7@12, asks 5@10 and 2@11.  The
first `match` trades 10/10 (both sides empty simultaneously), then skips
bid 12 and stops, returning 1 and leaving bid 12 and ask 11 — which cross —
resting; the second `match` returns 1, not 0. -/
theorem match_second_call_trades_again :
    (matchBook 0 0 (bid_ask .ask "a2" 11 2 (bid_ask .ask "a1" 10 5
        (bid_ask .bid "b2" 12 7 (bid_ask .bid "b1" 10 5 emptyBook))))).2 = 1 ∧
    12 ∈ (matchBook 0 0 (bid_ask .ask "a2" 11 2 (bid_ask .ask "a1" 10 5
        (bid_ask .bid "b2" 12 7 (bid_ask .bid "b1" 10 5 emptyBook))))).1.bidPrices ∧
    11 ∈ (matchBook 0 0 (bid_ask .ask "a2" 11 2 (bid_ask .ask "a1" 10 5
        (bid_ask .bid "b2" 12 7 (bid_ask .bid "b1" 10 5 emptyBook))))).1.askPrices ∧
    (matchBook 0 0 (matchBook 0 0 (bid_ask .ask "a2" 11 2 (bid_ask .ask "a1" 10 5
        (bid_ask .bid "b2" 12 7 (bid_ask .bid "b1" 10 5 emptyBook))))).1).2 = 1 := by
  have h0 : bid_ask .ask "a2" 11 2 (bid_ask .ask "a1" 10 5
      (bid_ask .bid "b2" 12 7 (bid_ask .bid "b1" 10 5 emptyBook)))
      = ⟨[10, 12], [10, 11], [(10, [⟨"b1", 5⟩]), (12, [⟨"b2", 7⟩])],
          [(10, [⟨"a1", 5⟩]), (11, [⟨"a2", 2⟩])], []⟩ := by
    norm_num [bid_ask, emptyBook, zadd, qget, qset]
  have h1 : matchBook 0 0 ⟨[10, 12], [10, 11],
      [(10, [⟨"b1", 5⟩]), (12, [⟨"b2", 7⟩])],
      [(10, [⟨"a1", 5⟩]), (11, [⟨"a2", 2⟩])], []⟩
      = (⟨[12], [11], [(10, []), (12, [⟨"b2", 7⟩])],
          [(10, []), (11, [⟨"a2", 2⟩])], [⟨"b1", "a1", 10, 10, 0, 0⟩]⟩, 1) := by
    norm_num [matchBook, matchRun, matchGo, trade, tradeLoop, tradeGo,
      zadd, zrem, qget, qset, bLB, aCnt, skipAdv, skipGo]
  have h2 : matchBook 0 0 ⟨[12], [11], [(10, []), (12, [⟨"b2", 7⟩])],
      [(10, []), (11, [⟨"a2", 2⟩])], [⟨"b1", "a1", 10, 10, 0, 0⟩]⟩
      = (⟨[12], [], [(10, []), (12, [⟨"b2", 5⟩])],
          [(10, []), (11, [])],
          [⟨"b2", "a2", 12, 11, 2, 0⟩, ⟨"b1", "a1", 10, 10, 0, 0⟩]⟩, 1) := by
    norm_num [matchBook, matchRun, matchGo, trade, tradeLoop, tradeGo,
      zadd, zrem, qget, qset, bLB, aCnt, skipAdv, skipGo]
  rw [h0, h1]
  simp [h2]

set_option maxHeartbeats 4000000 in
/-- C2 (counterexample): the claim says `match` always trades the lowest
ask against the LOWEST bid level that still crosses it.  Input: bids 5@10,
4@12, 6@13; asks 5@10, 2@11.  The 10/10 trade exhausts both sides at once;
`match` advances `a` to ask 11, the skip loop advances `b` to bid 12
(which crosses 11), and the `bid_fully_matched` branch then advances `b`
again, so the next trade is at bid 13 — although bid level 12 still
crosses ask 11 and rests untouched during the whole run (its queue is the
same before and after, and no fill names it). -/
theorem match_trades_higher_bid_while_lower_crosses :
    (matchBook 0 0 (bid_ask .ask "a2" 11 2 (bid_ask .ask "a1" 10 5
        (bid_ask .bid "b3" 13 6 (bid_ask .bid "b2" 12 4
        (bid_ask .bid "b1" 10 5 emptyBook)))))).1.matched
      = [⟨"b3", "a2", 13, 11, 2, 0⟩, ⟨"b1", "a1", 10, 10, 0, 0⟩] ∧
    qget (bid_ask .ask "a2" 11 2 (bid_ask .ask "a1" 10 5
        (bid_ask .bid "b3" 13 6 (bid_ask .bid "b2" 12 4
        (bid_ask .bid "b1" 10 5 emptyBook))))).bidQueues 12 = [⟨"b2", 4⟩] ∧
    qget (matchBook 0 0 (bid_ask .ask "a2" 11 2 (bid_ask .ask "a1" 10 5
        (bid_ask .bid "b3" 13 6 (bid_ask .bid "b2" 12 4
        (bid_ask .bid "b1" 10 5 emptyBook)))))).1.bidQueues 12 = [⟨"b2", 4⟩] ∧
    12 ∈ (matchBook 0 0 (bid_ask .ask "a2" 11 2 (bid_ask .ask "a1" 10 5
        (bid_ask .bid "b3" 13 6 (bid_ask .bid "b2" 12 4
        (bid_ask .bid "b1" 10 5 emptyBook)))))).1.bidPrices ∧
    (11 : ℚ) ≤ 12 ∧ (12 : ℚ) < 13 := by
  have h0 : bid_ask .ask "a2" 11 2 (bid_ask .ask "a1" 10 5
      (bid_ask .bid "b3" 13 6 (bid_ask .bid "b2" 12 4
      (bid_ask .bid "b1" 10 5 emptyBook))))
      = ⟨[10, 12, 13], [10, 11],
          [(10, [⟨"b1", 5⟩]), (12, [⟨"b2", 4⟩]), (13, [⟨"b3", 6⟩])],
          [(10, [⟨"a1", 5⟩]), (11, [⟨"a2", 2⟩])], []⟩ := by
    norm_num [bid_ask, emptyBook, zadd, qget, qset]
  have h1 : matchBook 0 0 ⟨[10, 12, 13], [10, 11],
      [(10, [⟨"b1", 5⟩]), (12, [⟨"b2", 4⟩]), (13, [⟨"b3", 6⟩])],
      [(10, [⟨"a1", 5⟩]), (11, [⟨"a2", 2⟩])], []⟩
      = (⟨[12, 13], [],
          [(10, []), (12, [⟨"b2", 4⟩]), (13, [⟨"b3", 4⟩])],
          [(10, []), (11, [])],
          [⟨"b3", "a2", 13, 11, 2, 0⟩, ⟨"b1", "a1", 10, 10, 0, 0⟩]⟩, 2) := by
    norm_num [matchBook, matchRun, matchGo, trade, tradeLoop, tradeGo,
      zadd, zrem, qget, qset, bLB, aCnt, skipAdv, skipGo]
  rw [h0, h1]
  norm_num [qget]

/-- C2 (amended): matching consumes crossing price levels bid-ascending and
ask-ascending, starting at the lowest crossing bid index `b_lb` and the
lowest ask: the chronological fill sequence of one `match` call has
non-decreasing bid prices and non-decreasing ask prices, and every fill's
bid price is at least the snapshot price at `b_lb` and its ask price at
least the lowest ask.  (The original claim's stronger clause — that the bid
traded is always the LOWEST still-crossing level — fails when a trade
exhausts both sides at once, see the counterexample.) -/
theorem match_consumes_levels_ascending (tA0 : ℚ) (now : Int) (bk : Book)
    (hsb : bk.bidPrices.Sorted (· < ·)) (hsa : bk.askPrices.Sorted (· < ·)) :
    ∃ fs : List Fill,
      (matchBook tA0 now bk).1.matched = fs.reverse ++ bk.matched ∧
      List.Chain' (fun f g => f.bidPrice ≤ g.bidPrice) fs ∧
      List.Chain' (fun f g => f.askPrice ≤ g.askPrice) fs ∧
      ∀ f ∈ fs, bk.bidPrices.getD (bLB bk.bidPrices bk.askPrices) 0 ≤ f.bidPrice ∧
        bk.askPrices.getD 0 0 ≤ f.askPrice :=
  matchRun_mono tA0 now bk hsb hsa

/-- Witness for the amended C2 theorem at a concrete crossing book. -/
theorem match_consumes_levels_ascending_witness :
    ∃ fs : List Fill,
      (matchBook 0 0 demoBook).1.matched = fs.reverse ++ demoBook.matched ∧
      List.Chain' (fun f g => f.bidPrice ≤ g.bidPrice) fs ∧
      List.Chain' (fun f g => f.askPrice ≤ g.askPrice) fs ∧
      ∀ f ∈ fs, demoBook.bidPrices.getD (bLB demoBook.bidPrices demoBook.askPrices) 0
          ≤ f.bidPrice ∧ demoBook.askPrices.getD 0 0 ≤ f.askPrice :=
  match_consumes_levels_ascending 0 0 demoBook (by decide) (by decide)

/-- C4: the non-empty-level invariant is preserved by every complete public
operation: placing an order (`bid_ask`), matching (`match`), and clearing
(`clear`).  A level is created non-empty by `bid_ask`'s push, and inside
`trade` a price is `ZREM`ed exactly in the iteration that observes its
queue empty, before the loop breaks. -/
theorem ops_preserve_level_inv (bk : Book) (h : levelInv bk) :
    (∀ (s : Side) (u : String) (p amt : ℚ), levelInv (bid_ask s u p amt bk)) ∧
    (∀ (tA0 : ℚ) (now : Int), levelInv (matchBook tA0 now bk).1) ∧
    levelInv (clearBook bk) :=
  ⟨fun s u p amt => bid_ask_level_inv s u p amt bk h,
   fun tA0 now => matchRun_level_inv tA0 now bk h,
   clearBook_level_inv bk⟩

/-- Witness for C4 at a concrete book. -/
theorem ops_preserve_level_inv_witness :
    levelInv (bid_ask .bid "u" 7 2 demoBook) ∧
    levelInv (matchBook 0 0 demoBook).1 ∧ levelInv (clearBook demoBook) :=
  ⟨(ops_preserve_level_inv demoBook
      ⟨by intro p hp; fin_cases hp <;> simp [demoBook, qget],
       by intro p hp; fin_cases hp <;> simp [demoBook, qget]⟩).1 .bid "u" 7 2,
   (ops_preserve_level_inv demoBook
      ⟨by intro p hp; fin_cases hp <;> simp [demoBook, qget],
       by intro p hp; fin_cases hp <;> simp [demoBook, qget]⟩).2.1 0 0,
   (ops_preserve_level_inv demoBook
      ⟨by intro p hp; fin_cases hp <;> simp [demoBook, qget],
       by intro p hp; fin_cases hp <;> simp [demoBook, qget]⟩).2.2⟩

/-- C5: FIFO fairness.  Every `trade` call leaves every queue of the book
(at the traded prices and elsewhere) in the `QDrain` relation to its old
value: a prefix of the earliest orders was fully consumed and removed, the
oldest survivor is still at the front — with its user intact and at most
its amount rewritten (a partial fill stays at the head) — and all later
orders are untouched.  `QDrain` is transitive, so the same holds across
any sequence of `trade` calls: an earlier-placed order reaches zero and
leaves the queue no later than any later-placed one. -/
theorem trade_fifo_queue_drain :
    (∀ (tA0 : ℚ) (now : Int) (bp ap p : ℚ) (bk : Book),
      QDrain (qget bk.bidQueues p) (qget (trade tA0 now bp ap bk).1.bidQueues p) ∧
      QDrain (qget bk.askQueues p) (qget (trade tA0 now bp ap bk).1.askQueues p)) ∧
    (∀ q q' q'' : List Order, QDrain q q' → QDrain q' q'' → QDrain q q'') := by
  constructor
  · intro tA0 now bp ap p bk
    constructor
    · by_cases hp : p = bp
      · subst hp
        have h := (tradeGo_qdrain p ap now
          ((qget bk.bidQueues p).length + (qget bk.askQueues ap).length)
          (qget bk.bidQueues p) (qget bk.askQueues ap) tA0).1
        simp only [trade, tradeLoop]
        rw [qget_qset_self]
        exact h
      · simp only [trade, tradeLoop]
        rw [qget_qset_ne _ _ _ _ hp]
        exact qdrain_refl _
    · by_cases hp : p = ap
      · subst hp
        have h := (tradeGo_qdrain bp p now
          ((qget bk.bidQueues bp).length + (qget bk.askQueues p).length)
          (qget bk.bidQueues bp) (qget bk.askQueues p) tA0).2
        simp only [trade, tradeLoop]
        rw [qget_qset_self]
        exact h
      · simp only [trade, tradeLoop]
        rw [qget_qset_ne _ _ _ _ hp]
        exact qdrain_refl _
  · exact fun q q' q'' => qdrain_trans

/-- Witness for C5: transitivity applied to two concrete draining steps. -/
theorem trade_fifo_queue_drain_witness :
    QDrain [⟨"a", 5⟩, ⟨"b", 5⟩] [] :=
  trade_fifo_queue_drain.2 [⟨"a", 5⟩, ⟨"b", 5⟩] [⟨"b", 5⟩] []
    ⟨1, Or.inl rfl⟩ ⟨1, Or.inl rfl⟩

/-- C6 (counterexample): the claim says `PlaceOrder` requires positive
price and amount and fails with `InvalidOrder`, leaving the book unchanged,
otherwise.  `bid_ask` (book.c lines 67-77) performs no validation at all: a
bid with amount 0 (and likewise one with negative price and amount) is
pushed into the book. -/
theorem bid_ask_accepts_nonpositive_order :
    bid_ask .bid "u" 10 0 emptyBook ≠ emptyBook ∧
    qget (bid_ask .bid "u" 10 0 emptyBook).bidQueues 10 = [⟨"u", 0⟩] ∧
    10 ∈ (bid_ask .bid "u" 10 0 emptyBook).bidPrices ∧
    bid_ask .ask "v" (-1) (-2) emptyBook ≠ emptyBook := by
  norm_num [bid_ask, emptyBook, zadd, qget, qset]

/-- C6 (amended): `PlaceOrder` performs no validation: EVERY call — with
the price and amount whatever they are, positive or not — appends the new
order to the tail of the addressed price level's queue, creating the level
(inserting its price into the side's ordered index) if absent, and touches
nothing else. -/
theorem bid_ask_appends_unconditionally (u : String) (p amt : ℚ) (bk : Book) :
    ((bid_ask .bid u p amt bk).bidPrices = zadd bk.bidPrices p ∧
      qget (bid_ask .bid u p amt bk).bidQueues p = qget bk.bidQueues p ++ [⟨u, amt⟩] ∧
      (∀ p', p' ≠ p → qget (bid_ask .bid u p amt bk).bidQueues p' = qget bk.bidQueues p') ∧
      (bid_ask .bid u p amt bk).askPrices = bk.askPrices ∧
      (bid_ask .bid u p amt bk).askQueues = bk.askQueues ∧
      (bid_ask .bid u p amt bk).matched = bk.matched) ∧
    ((bid_ask .ask u p amt bk).askPrices = zadd bk.askPrices p ∧
      qget (bid_ask .ask u p amt bk).askQueues p = qget bk.askQueues p ++ [⟨u, amt⟩] ∧
      (∀ p', p' ≠ p → qget (bid_ask .ask u p amt bk).askQueues p' = qget bk.askQueues p') ∧
      (bid_ask .ask u p amt bk).bidPrices = bk.bidPrices ∧
      (bid_ask .ask u p amt bk).bidQueues = bk.bidQueues ∧
      (bid_ask .ask u p amt bk).matched = bk.matched) :=
  ⟨⟨rfl, qget_qset_self _ _ _, fun p' h => qget_qset_ne _ _ _ _ h, rfl, rfl, rfl⟩,
   ⟨rfl, qget_qset_self _ _ _, fun p' h => qget_qset_ne _ _ _ _ h, rfl, rfl, rfl⟩⟩

/-- Witness for the amended C6 theorem: a foreign price level is untouched. -/
theorem bid_ask_appends_unconditionally_witness :
    qget (bid_ask .bid "u" 10 0 emptyBook).bidQueues 9 = qget emptyBook.bidQueues 9 :=
  (bid_ask_appends_unconditionally "u" 10 0 emptyBook).1.2.2.1 9 (by norm_num)

/-- C7 (counterexample): the claim says `Trade` on a price with no existing
level is an `InvalidState` error rather than succeeding with zero fills and
silently reporting that side exhausted.  The code has no such error: with
no bid level at 10, `trade(10, 20)` performs the `ZREM`-and-break path
(book.c lines 180-185), returns 0 trades, sets `bid_fully_matched`, and
records nothing. -/
theorem trade_missing_level_silently_succeeds :
    (trade 0 0 10 20 (bid_ask .ask "s" 20 4 emptyBook)).2.1 = 0 ∧
    (trade 0 0 10 20 (bid_ask .ask "s" 20 4 emptyBook)).2.2.1 = true ∧
    (trade 0 0 10 20 (bid_ask .ask "s" 20 4 emptyBook)).1.matched = [] ∧
    qget (bid_ask .ask "s" 20 4 emptyBook).bidQueues 10 = [] := by
  norm_num [trade, tradeLoop, tradeGo, bid_ask, emptyBook, zadd, qget, qset, zrem]

/-- C7 (amended): `trade` called with a price holding no resting orders on
either side succeeds with zero fills, reports that side fully matched
(exhausted), and appends nothing to the ledger; no error is raised. -/
theorem trade_missing_level_zero_fills (tA0 : ℚ) (now : Int) (bp ap : ℚ) (bk : Book) :
    (qget bk.bidQueues bp = [] →
      (trade tA0 now bp ap bk).2.1 = 0 ∧ (trade tA0 now bp ap bk).2.2.1 = true ∧
      (trade tA0 now bp ap bk).1.matched = bk.matched) ∧
    (qget bk.askQueues ap = [] →
      (trade tA0 now bp ap bk).2.1 = 0 ∧ (trade tA0 now bp ap bk).2.2.2 = true ∧
      (trade tA0 now bp ap bk).1.matched = bk.matched) := by
  constructor
  · intro h
    simp [trade, tradeLoop, h, tradeGo]
  · intro h
    cases hbq : qget bk.bidQueues bp with
    | nil => simp [trade, tradeLoop, h, hbq, tradeGo]
    | cons b bq => simp [trade, tradeLoop, h, hbq, tradeGo]

/-- Witness for the amended C7 theorem on the empty book. -/
theorem trade_missing_level_zero_fills_witness :
    (trade 3 5 10 20 emptyBook).2.1 = 0 ∧ (trade 3 5 10 20 emptyBook).2.2.1 = true ∧
    (trade 3 5 10 20 emptyBook).1.matched = emptyBook.matched :=
  (trade_missing_level_zero_fills 3 5 10 20 emptyBook).1 rfl

/-- C8: `list` output ordering and cumulative totals.  Concrete scenario:
bids 5@10 then 3@12 and no asks snapshot to rows
`[(12, 1, 3, 3), (10, 1, 5, 8)]` — best (highest) bid first, totals summed
from the best price outward.  In general the bid rows walk the bid prices
in reverse (descending, best first) and the ask rows walk the ask prices
ascending (best first); with a sorted index the bid row prices are strictly
descending and the ask row prices strictly ascending; and every row's total
is the accumulated sum of the level amounts up to and including it.  The
snapshot is a pure function of the book: `list` issues only read commands,
so it cannot mutate the book. -/
theorem snapshot_best_first_cumulative :
    (snapBids (bid_ask .bid "y" 12 3 (bid_ask .bid "x" 10 5 emptyBook))
        = [⟨12, 1, 3, 3⟩, ⟨10, 1, 5, 8⟩] ∧
      snapAsks (bid_ask .bid "y" 12 3 (bid_ask .bid "x" 10 5 emptyBook)) = []) ∧
    (∀ bk : Book, (snapBids bk).map Row.price = bk.bidPrices.reverse ∧
      (snapAsks bk).map Row.price = bk.askPrices) ∧
    (∀ bk : Book, bk.bidPrices.Sorted (· < ·) →
      ((snapBids bk).map Row.price).Sorted (· > ·)) ∧
    (∀ bk : Book, bk.askPrices.Sorted (· < ·) →
      ((snapAsks bk).map Row.price).Sorted (· < ·)) ∧
    (∀ (qs : List (ℚ × List Order)) (ps : List ℚ) (t : ℚ) (i : Nat),
      i < (snapRows qs ps t).length →
      ((snapRows qs ps t).getD i ⟨0, 0, 0, 0⟩).total
        = t + (((snapRows qs ps t).take (i + 1)).map Row.amount).sum) := by
  refine ⟨⟨?_, ?_⟩, ?_, ?_, ?_, ?_⟩
  · norm_num [snapBids, snapRows, bid_ask, emptyBook, zadd, qget, qset, qsum]
  · norm_num [snapAsks, snapRows, bid_ask, emptyBook]
  · intro bk
    exact ⟨snapRows_map_price _ _ _, snapRows_map_price _ _ _⟩
  · intro bk hs
    have h := snapRows_map_price bk.bidQueues bk.bidPrices.reverse 0
    show ((snapRows bk.bidQueues bk.bidPrices.reverse 0).map Row.price).Sorted (· > ·)
    rw [h]
    exact List.pairwise_reverse.2 hs
  · intro bk hs
    have h := snapRows_map_price bk.askQueues bk.askPrices 0
    show ((snapRows bk.askQueues bk.askPrices 0).map Row.price).Sorted (· < ·)
    rw [h]
    exact hs
  · intro qs ps t i h
    rw [List.getD_eq_get _ _ h]
    exact snapRows_total qs ps t i h

/-- Witness for C8: the sorted-rows and cumulative-total clauses at a
concrete book. -/
theorem snapshot_best_first_cumulative_witness :
    ((snapBids demoBook).map Row.price).Sorted (· > ·) ∧
    ((snapAsks demoBook).map Row.price).Sorted (· < ·) ∧
    ((snapRows demoBook.bidQueues [10, 12] 0).getD 1 ⟨0, 0, 0, 0⟩).total
      = 0 + (((snapRows demoBook.bidQueues [10, 12] 0).take 2).map Row.amount).sum :=
  ⟨snapshot_best_first_cumulative.2.2.1 demoBook (by decide),
   snapshot_best_first_cumulative.2.2.2.1 demoBook (by decide),
   snapshot_best_first_cumulative.2.2.2.2 demoBook.bidQueues [10, 12] 0 1
     (by norm_num [snapRows])⟩

/-- C9: every operation terminates with bounded work.  The `match` loop
always reaches one of its `break` statements within its fuel (third result
component `true`), and the number of fills one `match` call executes is at
most the number of resting orders held in the book's queues.  For the
`trade` loop: one completed run records at most as many fills as orders it
removed (each iteration pops at least one order), and always exits through
an exhausted-side break — at least one exhausted flag is set. -/
theorem match_terminates_work_bounded :
    (∀ (tA0 : ℚ) (now : Int) (bk : Book),
      (matchRun tA0 now bk).2.2 = true ∧
      (matchRun tA0 now bk).2.1 ≤ qtotal bk.bidQueues + qtotal bk.askQueues) ∧
    (∀ (bp ap : ℚ) (now : Int) (bq aq : List Order) (tA : ℚ),
      (tradeLoop bp ap now bq aq tA).fills.length
          + (tradeLoop bp ap now bq aq tA).bidQ.length
          + (tradeLoop bp ap now bq aq tA).askQ.length ≤ bq.length + aq.length ∧
      ((tradeLoop bp ap now bq aq tA).bidExhausted = true ∨
        (tradeLoop bp ap now bq aq tA).askExhausted = true)) :=
  ⟨fun tA0 now bk => ⟨matchRun_complete tA0 now bk, matchRun_count tA0 now bk⟩,
   fun bp ap now bq aq tA =>
     ⟨tradeGo_progress bp ap now (bq.length + aq.length) bq aq tA,
      tradeGo_flag bp ap now (bq.length + aq.length) bq aq tA le_rfl⟩⟩

/-- C10: safety of the bid-skipping loop in `match`.  Whenever the loop
runs — ask index `a` still within the crossing range (`a ≤ a_ub`, i.e.
`a < aCnt`), bid index `b` inside the snapshot, and the current bid price
below the ask price at `a` — the snapshot's last (highest) bid price is at
least that ask price, so the walk stops at an index before the end of the
bid snapshot (at a price at least the ask price) and never indexes past
it. -/
theorem skip_loop_stays_in_bounds (bids asks : List ℚ) (a b : Nat)
    (ha : a < aCnt bids asks) (hb : b < bids.length)
    (hentry : bids.getD b 0 < asks.getD a 0) :
    asks.getD a 0 ≤ bids.getD (bids.length - 1) 0 ∧
    skipAdv bids (asks.getD a 0) b < bids.length ∧
    asks.getD a 0 ≤ bids.getD (skipAdv bids (asks.getD a 0) b) 0 := by
  have hne : bids ≠ [] := by
    intro h
    rw [h] at hb
    simp at hb
  have h1 : asks.getD a 0 ≤ bids.getD (bids.length - 1) 0 := aCnt_le bids asks hne a ha
  have hbne : b + 1 < bids.length := by
    rcases Nat.lt_or_ge (b + 1) bids.length with h | h
    · exact h
    · exfalso
      have hb' : b = bids.length - 1 := by omega
      rw [hb'] at hentry
      exact absurd h1 (not_le.2 hentry)
  exact ⟨h1, skipGo_bound bids (asks.getD a 0) h1 (bids.length - b) b hbne le_rfl⟩

/-- Witness for C10: bids `[5, 8, 9]`, asks `[6, 7]`, skip from `b = 0`
towards the ask at index 1. -/
theorem skip_loop_stays_in_bounds_witness :
    [(6 : ℚ), 7].getD 1 0 ≤ [(5 : ℚ), 8, 9].getD ([(5 : ℚ), 8, 9].length - 1) 0 ∧
    skipAdv [5, 8, 9] ([(6 : ℚ), 7].getD 1 0) 0 < [(5 : ℚ), 8, 9].length ∧
    [(6 : ℚ), 7].getD 1 0 ≤ [(5 : ℚ), 8, 9].getD (skipAdv [5, 8, 9] ([(6 : ℚ), 7].getD 1 0) 0) 0 :=
  skip_loop_stays_in_bounds [5, 8, 9] [6, 7] 1 0 (by decide) (by decide) (by decide)
